import Mathlib

/-!
Verification of the matching and ranking engine of the Audioteka scraper
(src/server.js). Strings are modelled as lists of Unicode characters; every
definition is a direct shallow embedding of the corresponding JavaScript
function. Scores are rationals (JS numbers are used here only for exact small
arithmetic: sums, one division, comparisons).

The repository's server.js contains two revisions of the service, separated in
the file: the current one (normalize / extractTitleComponents / calculateScore /
removeDuplicates / the three-page search loop) and an older one
(normalizeString / calculateMatchScore / the search loop without dedup). Both
are embedded below, since the claims refer to both scorers.
-/

set_option maxRecDepth 20000

namespace AudiotekaModel

/-- Check whether the pattern list occurs contiguously in the haystack:
model of String.prototype.includes. An empty pattern always occurs. -/
def jsIncl (sub : List Char) : List Char → Bool
  | [] => sub.isEmpty
  | c :: cs => sub.isPrefixOf (c :: cs) || jsIncl sub cs

/-- JS regex class \s : whitespace code points recognised by JavaScript. -/
def isSp (c : Char) : Bool :=
  c.toNat = 0x20 || (0x9 ≤ c.toNat && c.toNat ≤ 0xD) || c.toNat = 0xA0 ||
  c.toNat = 0x1680 || (0x2000 ≤ c.toNat && c.toNat ≤ 0x200A) || c.toNat = 0x2028 ||
  c.toNat = 0x2029 || c.toNat = 0x202F || c.toNat = 0x205F || c.toNat = 0x3000 ||
  c.toNat = 0xFEFF

/-- JS regex class \w : ASCII letters, digits and underscore. -/
def isWordChar (c : Char) : Bool :=
  (0x41 ≤ c.toNat && c.toNat ≤ 0x5A) || (0x61 ≤ c.toNat && c.toNat ≤ 0x7A) ||
  (0x30 ≤ c.toNat && c.toNat ≤ 0x39) || c.toNat = 0x5F

/-- Lower-case word characters and digits: the characters a normalized string
can be made of besides single spaces. -/
def baseChar (c : Char) : Bool :=
  (0x61 ≤ c.toNat && c.toNat ≤ 0x7A) || (0x30 ≤ c.toNat && c.toNat ≤ 0x39) ||
  c.toNat = 0x5F

/-- Combining diacritical marks U+0300 .. U+036F, stripped by the normalizers. -/
def isCombining (c : Char) : Bool :=
  0x300 ≤ c.toNat && c.toNat ≤ 0x36F

/-- JS regex `.` (without the s flag): any character except a line terminator. -/
def dotChar (c : Char) : Bool :=
  !(c.toNat = 0xA || c.toNat = 0xD || c.toNat = 0x2028 || c.toNat = 0x2029)

/-- Case-folding table for String.prototype.toLowerCase restricted to the
non-ASCII repertoire this catalog uses (Polish and Czech capitals). Code
points outside ASCII and this table are left unchanged; they are erased to
spaces by the \w filter of both normalizers anyway. -/
def lowerTable : List (Char × Char) :=
  [('Ą', 'ą'), ('Ć', 'ć'), ('Ę', 'ę'), ('Ł', 'ł'), ('Ń', 'ń'), ('Ó', 'ó'),
   ('Ś', 'ś'), ('Ź', 'ź'), ('Ż', 'ż'), ('Á', 'á'), ('Č', 'č'), ('Ď', 'ď'),
   ('É', 'é'), ('Ě', 'ě'), ('Í', 'í'), ('Ň', 'ň'), ('Ř', 'ř'), ('Š', 'š'),
   ('Ť', 'ť'), ('Ú', 'ú'), ('Ů', 'ů'), ('Ý', 'ý'), ('Ž', 'ž')]

/-- Model of String.prototype.toLowerCase: ASCII capitals are shifted by 32,
other characters go through lowerTable. -/
def jsLower (c : Char) : Char :=
  if 0x41 ≤ c.toNat ∧ c.toNat ≤ 0x5A then Char.ofNat (c.toNat + 32)
  else if c.toNat < 0x80 then c
  else ((lowerTable.lookup c).getD c)

/-- Canonical decomposition (NFD) table for the same repertoire: each accented
lower-case letter maps to its base letter followed by a combining mark. -/
def nfdTable : List (Char × List Char) :=
  [('ą', ['a', Char.ofNat 0x328]), ('ć', ['c', Char.ofNat 0x301]),
   ('ę', ['e', Char.ofNat 0x328]), ('ń', ['n', Char.ofNat 0x301]),
   ('ó', ['o', Char.ofNat 0x301]), ('ś', ['s', Char.ofNat 0x301]),
   ('ź', ['z', Char.ofNat 0x301]), ('ż', ['z', Char.ofNat 0x307]),
   ('á', ['a', Char.ofNat 0x301]), ('č', ['c', Char.ofNat 0x30C]),
   ('ď', ['d', Char.ofNat 0x30C]), ('é', ['e', Char.ofNat 0x301]),
   ('ě', ['e', Char.ofNat 0x30C]), ('í', ['i', Char.ofNat 0x301]),
   ('ň', ['n', Char.ofNat 0x30C]), ('ř', ['r', Char.ofNat 0x30C]),
   ('š', ['s', Char.ofNat 0x30C]), ('ť', ['t', Char.ofNat 0x30C]),
   ('ú', ['u', Char.ofNat 0x301]), ('ů', ['u', Char.ofNat 0x30A]),
   ('ý', ['y', Char.ofNat 0x301]), ('ž', ['z', Char.ofNat 0x30C])]

/-- Model of String.prototype.normalize with form NFD, per character. ASCII
characters are their own decomposition. -/
def nfd (c : Char) : List Char :=
  if c.toNat < 0x80 then [c] else ((nfdTable.lookup c).getD [c])

/-- The replace of any character outside \w and \s by a single space,
performed character-wise (server.js line 25). -/
def wordFilterChar (c : Char) : Char :=
  if isWordChar c || isSp c then c else ' '

/-- Model of .replace of every maximal \s+ run by a single space
(server.js line 26). -/
def collapseWS : List Char → List Char
  | [] => []
  | [c] => if isSp c then [' '] else [c]
  | c1 :: c2 :: rest =>
    if isSp c1 && isSp c2 then collapseWS (c2 :: rest)
    else (if isSp c1 then ' ' else c1) :: collapseWS (c2 :: rest)

/-- Model of String.prototype.trim: strip leading and trailing whitespace. -/
def jsTrim (s : List Char) : List Char :=
  ((s.dropWhile isSp).reverse.dropWhile isSp).reverse

/-- Model of normalize (server.js lines 21-28): lower-case, NFD, strip
combining marks, turn non-word non-space characters into spaces, collapse
whitespace runs to one space, trim. -/
def normalize (s : List Char) : List Char :=
  jsTrim (collapseWS ((((s.map jsLower).map nfd).flatten.filter
    (fun c => !isCombining c)).map wordFilterChar))

/-- Model of normalizeString from the older revision (server.js second copy,
lines 352-358): lower-case, NFD, strip combining marks, delete (not blank out)
any character outside \w and \s; no collapsing and no trim. -/
def normalizeString (s : List Char) : List Char :=
  (((s.map jsLower).map nfd).flatten.filter (fun c => !isCombining c)).filter
    (fun c => isWordChar c || isSp c)

/-- Model of String.prototype.split(/\s+/): cut at each maximal whitespace
run; a leading or trailing run contributes an empty piece, and splitting the
empty string yields one empty piece, exactly as in JavaScript. -/
def jsSplitGo : Nat → List Char → List Char → List (List Char)
  | 0, acc, _ => [acc.reverse]
  | _ + 1, acc, [] => [acc.reverse]
  | fuel + 1, acc, c :: rest =>
    if isSp c then acc.reverse :: jsSplitGo fuel [] (rest.dropWhile isSp)
    else jsSplitGo fuel (c :: acc) rest

/-- Wrapper supplying the fuel: every step of jsSplitGo consumes at least one
input character, so input length plus one always suffices. -/
def jsSplitWS (acc s : List Char) : List (List Char) :=
  jsSplitGo (s.length + 1) acc s

/-- ASCII-only case fold used to model the regex i flag on ASCII literals. -/
def asciiLower (c : Char) : Char :=
  if 0x41 ≤ c.toNat ∧ c.toNat ≤ 0x5A then Char.ofNat (c.toNat + 32) else c

/-- Case-insensitive character comparison for the regex i flag. -/
def ciEq (p c : Char) : Bool :=
  asciiLower p == asciiLower c

/-- Match a fixed pattern literal case-insensitively at the head of the input,
returning the rest of the input on success. -/
def matchLit : List Char → List Char → Option (List Char)
  | [], s => some s
  | _ :: _, [] => none
  | p :: ps, c :: cs => if ciEq p c then matchLit ps cs else none

/-- Match \s+-\s+ at the head of the input. The greedy \s+ are modelled by the
maximal whitespace run; this is exact because the following required token
('-', respectively the rest of the pattern, see the comment at scanLazy) makes
shorter runs either impossible or produce the same overall match. -/
def matchSepAt : List Char → Option (List Char)
  | [] => none
  | c :: cs =>
    if isSp c then
      match cs.dropWhile isSp with
      | '-' :: r =>
        match r with
        | [] => none
        | d :: ds => if isSp d then some (ds.dropWhile isSp) else none
      | _ => none
    else none

/-- Pattern literal audiobook tag, lower-cased; matched with ciEq. -/
def audiobookTag : List Char :=
  ['[', 'a', 'u', 'd', 'i', 'o', 'b', 'o', 'o', 'k', ' ', 'p', 'l', ']']

/-- Pattern literal of the optional suffix, lower-cased; matched with ciEq. -/
def superTag : List Char :=
  ['s', 'u', 'p', 'e', 'r', 'p', 'r', 'o', 'd', 'u', 'k', 'c', 'j', 'a']

/-- Match the regex tail (?:\s+Superprodukcja)?$ : either the end of input, or
at least one space, the suffix word, and then the end of input. -/
def matchEndTag : List Char → Bool
  | [] => true
  | c :: cs =>
    isSp c &&
      (match matchLit superTag (cs.dropWhile isSp) with
       | some [] => true
       | _ => false)

/-- Numeric value of the four captured year digits, as parseInt would give. -/
def yearOf (d1 d2 d3 d4 : Char) : Int :=
  1000 * ((d1.toNat : Int) - 48) + 100 * ((d2.toNat : Int) - 48) +
    10 * ((d3.toNat : Int) - 48) + ((d4.toNat : Int) - 48)

/-- Match the first pattern's tail \s*\((\d{4})\)\s*\[audiobook PL\] plus the
optional suffix and the end anchor, returning the captured year. -/
def tail1 (s : List Char) : Option Int :=
  match s.dropWhile isSp with
  | '(' :: r =>
    match r with
    | d1 :: d2 :: d3 :: d4 :: ')' :: r2 =>
      if d1.isDigit && d2.isDigit && d3.isDigit && d4.isDigit then
        match matchLit audiobookTag (r2.dropWhile isSp) with
        | some r4 => if matchEndTag r4 then some (yearOf d1 d2 d3 d4) else none
        | none => none
      else none
    | _ => none
  | _ => none

/-- Match the second pattern's tail \s*\[audiobook PL\] plus the optional
suffix and the end anchor. -/
def tail2 (s : List Char) : Option Unit :=
  match matchLit audiobookTag (s.dropWhile isSp) with
  | some r => if matchEndTag r then some () else none
  | none => none

/-- Lazy group scan modelling (.*?) followed by the rest of the pattern: try
the continuation at the current position first (shortest capture wins, as for
a lazy quantifier), else extend the capture by one dot-matching character.
The continuation validates the whole remainder of the pattern including the
end anchor, so the first success is the match the JS engine commits to. -/
def scanLazy {β : Type} (tryHere : List Char → Option β) :
    List Char → List Char → Option (List Char × β)
  | acc, s =>
    match tryHere s with
    | some b => some (acc.reverse, b)
    | none =>
      match s with
      | [] => none
      | c :: cs => if dotChar c then scanLazy tryHere (c :: acc) cs else none

/-- Components extracted from a composite catalog title. -/
structure TitleComponents where
  authors : List (List Char)
  cleanTitle : List Char
  year : Option Int
deriving DecidableEq, Repr

/-- First title pattern (with the year group), server.js line 33. -/
def tryPat1 (title : List Char) : Option (List Char × (List Char × Int)) :=
  scanLazy (fun s =>
    match matchSepAt s with
    | some r => scanLazy tail1 [] r
    | none => none) [] title

/-- Second title pattern (without the year group), server.js line 34. -/
def tryPat2 (title : List Char) : Option (List Char × (List Char × Unit)) :=
  scanLazy (fun s =>
    match matchSepAt s with
    | some r => scanLazy tail2 [] r
    | none => none) [] title

/-- Separator alternative \s*,\s* of the author split regex. -/
def sepAlt1 (s : List Char) : Option (List Char) :=
  match s.dropWhile isSp with
  | ',' :: r => some (r.dropWhile isSp)
  | _ => none

/-- Separator alternative \s+w\s+ for a connective word w ("i", "oraz"),
matched case-insensitively. -/
def sepAlt2 (w : List Char) (s : List Char) : Option (List Char) :=
  match s with
  | [] => none
  | c :: cs =>
    if isSp c then
      match matchLit w (cs.dropWhile isSp) with
      | some (d :: ds) => if isSp d then some (ds.dropWhile isSp) else none
      | _ => none
    else none

/-- Try the three separator alternatives of /\s*,\s*|\s+i\s+|\s+oraz\s+/i in
the order the regex lists them. -/
def trySep (s : List Char) : Option (List Char) :=
  match sepAlt1 s with
  | some r => some r
  | none =>
    match sepAlt2 ['i'] s with
    | some r => some r
    | none => sepAlt2 ['o', 'r', 'a', 'z'] s

/-- Worker of the author split: leftmost separator match wins, the rest is
scanned one character at a time. The fuel is bounded by the input length plus
one, which always suffices because every separator match consumes at least
one character. -/
def splitAuthGo : Nat → List Char → List Char → List (List Char)
  | 0, acc, _ => [acc.reverse]
  | fuel + 1, acc, s =>
    match trySep s with
    | some rest => acc.reverse :: splitAuthGo fuel [] rest
    | none =>
      match s with
      | [] => [acc.reverse]
      | c :: cs => splitAuthGo fuel (c :: acc) cs

/-- Model of match[1].split(/\s*,\s*|\s+i\s+|\s+oraz\s+/i), server.js
line 41. -/
def splitAuthors (s : List Char) : List (List Char) :=
  splitAuthGo (s.length + 1) [] s

/-- Model of extractTitleComponents (server.js lines 30-49): try the pattern
with the year group, then the one without; on a match, split the author
capture and parse the year if captured. -/
def extractTitleComponents (title : List Char) : Option TitleComponents :=
  match tryPat1 title with
  | some (g1, (g2, yr)) => some ⟨splitAuthors g1, g2, some yr⟩
  | none =>
    match tryPat2 title with
    | some (g1, (g2, _)) => some ⟨splitAuthors g1, g2, none⟩
    | none => none

/-- A raw catalog listing as collected by searchBooks. cleanTitle is
present only after merging in title components; removeDuplicates reads it
through the JS expression match.cleanTitle || match.title, hence the Option. -/
structure RawMatch where
  id : List Char
  title : List Char
  authors : List (List Char)
  url : List Char
  cover : List Char
  rating : Option ℚ
  cleanTitle : Option (List Char) := none
deriving DecidableEq, Repr

/-- The book record passed to calculateScore: the raw listing merged with its
title components. -/
structure BookC where
  title : List Char
  cleanTitle : Option (List Char)
  authors : List (List Char)
  rating : Option ℚ
  year : Option Int
deriving DecidableEq, Repr

/-- JS expression book.cleanTitle || book.title: an absent or empty cleanTitle
falls back to the raw title. -/
def jsOrTitle (book : BookC) : List Char :=
  match book.cleanTitle with
  | some t => if t = [] then book.title else t
  | none => book.title

/-- Same falsy-or for a raw listing, used by removeDuplicates. -/
def rawKeyTitle (m : RawMatch) : List Char :=
  match m.cleanTitle with
  | some t => if t = [] then m.title else t
  | none => m.title

/-- Word-by-word title term of calculateScore (server.js lines 68-72): the
fraction of query words of length above one that occur in the title, scaled
by 60; skipped when there are no such words. -/
def titleWordScore (normTitle normQuery : List Char) : ℚ :=
  if 0 < ((jsSplitWS [] normQuery).filter (fun w => 1 < w.length)).length then
    ((((jsSplitWS [] normQuery).filter (fun w => 1 < w.length)).filter
        (fun w => jsIncl w normTitle)).length : ℚ) /
      (((jsSplitWS [] normQuery).filter (fun w => 1 < w.length)).length : ℚ) * 60
  else 0

/-- Author term of calculateScore (server.js lines 75-80): 25 points when the
author filter is non-empty and substring-matches some book author in either
direction. -/
def authorScore (normAuthor : List Char) (normBookAuthors : List (List Char)) : ℚ :=
  if normAuthor ≠ [] ∧ normBookAuthors.any
      (fun ba => jsIncl normAuthor ba || jsIncl ba normAuthor) then 25
  else 0

/-- Rating bonus shared by both scorers (server.js lines 83-84 and 385-386).
A missing rating compares false against both thresholds in JS. -/
def ratingBonus : Option ℚ → ℚ
  | some r => if (4.5 : ℚ) ≤ r then 10 else if (4 : ℚ) ≤ r then 5 else 0
  | none => 0

/-- Recency bonus of calculateScore (server.js lines 87-88): strict equality
of the decomposed year with the current year. -/
def yearBonus (cy : Int) (year : Option Int) : ℚ :=
  if year = some cy then 5 else 0

/-- Model of calculateScore (server.js lines 51-91). The current year of
new Date() is passed in explicitly to keep the function pure. -/
def calculateScore (cy : Int) (book : BookC) (query author : List Char) : ℚ :=
  if normalize (jsOrTitle book) = normalize query then 95
  else
    min ((if jsIncl (normalize query) (normalize (jsOrTitle book)) ||
             jsIncl (normalize (jsOrTitle book)) (normalize query) then 80 else 0)
      + titleWordScore (normalize (jsOrTitle book)) (normalize query)
      + authorScore (normalize author) (book.authors.map normalize)
      + ratingBonus book.rating
      + yearBonus cy book.year) 100

/-- Word-match term of calculateMatchScore (server.js lines 371-374): the
fraction of query words that occur verbatim among the title words, scaled by
30. The divisor is never zero: splitting always yields at least one piece. -/
def wordScore30 (normTitle normQuery : List Char) : ℚ :=
  (((jsSplitWS [] normQuery).filter
      (fun w => (jsSplitWS [] normTitle).contains w)).length : ℚ) /
    ((jsSplitWS [] normQuery).length : ℚ) * 30

/-- JS expression author ? normalizeString(author) : the empty string. -/
def jsNormAuthor (author : List Char) : List Char :=
  if author = [] then [] else normalizeString author

/-- Author term of calculateMatchScore (server.js lines 377-382): 40 when the
normalized filter occurs in the joined author string, else a 20-point penalty
whenever a filter was given at all. -/
def authorScore2 (author : List Char) (normBookAuthors : List Char) : ℚ :=
  if jsNormAuthor author ≠ [] ∧ jsIncl (jsNormAuthor author) normBookAuthors = true
  then 40
  else if author ≠ [] then -20 else 0

/-- Model of calculateMatchScore from the older revision (server.js lines
360-389). No clamping is applied to the sum. -/
def calculateMatchScore (book : RawMatch) (query author : List Char) : ℚ :=
  (if jsIncl (normalizeString query) (normalizeString book.title) then 50 else 0)
  + wordScore30 (normalizeString book.title) (normalizeString query)
  + authorScore2 author (List.intercalate [' '] (book.authors.map normalizeString))
  + ratingBonus book.rating

/-- The deduplication key string built by removeDuplicates (server.js
line 96): normalized title, a pipe, normalized first author. -/
def dedupKey (m : RawMatch) : List Char :=
  normalize (rawKeyTitle m) ++ '|' :: normalize (m.authors.headD [])

/-- The deduplication key seen as the pair the specification describes. -/
def dedupPair (m : RawMatch) : List Char × List Char :=
  (normalize (rawKeyTitle m), normalize (m.authors.headD []))

/-- Worker of removeDuplicates: the JS filter over a mutable seen-set,
written as a recursion threading the set through. -/
def removeDupGo : List RawMatch → List (List Char) → List RawMatch
  | [], _ => []
  | m :: rest, seen =>
    if dedupKey m ∈ seen then removeDupGo rest seen
    else m :: removeDupGo rest (dedupKey m :: seen)

/-- Model of removeDuplicates (server.js lines 93-101). -/
def removeDuplicates (l : List RawMatch) : List RawMatch :=
  removeDupGo l []

/-- Insertion into a descending-by-key list, placing the new element before
the first element whose key is not larger; this realises the stable
descending order of Array.prototype.sort with comparator b.score - a.score. -/
def insertDesc {α : Type} (key : α → ℚ) (x : α) : List α → List α
  | [] => [x]
  | y :: ys => if key y ≤ key x then x :: y :: ys else y :: insertDesc key x ys

/-- Stable descending sort by a rational key. A stable sort is unique for a
total preorder, so this insertion sort computes exactly the output of the JS
engine's stable Array.prototype.sort. -/
def sortDesc {α : Type} (key : α → ℚ) : List α → List α
  | [] => []
  | x :: xs => insertDesc key x (sortDesc key xs)

/-- Outcome of one searchBooks call: the try block of searchBooks (server.js
lines 128-155) is abstracted as a computation that either yields a page of
matches plus the has-more flag or raises; the catch (lines 156-159) turns any
raised error into an empty page with hasMore false. -/
def searchBooksResult (attempt : Except (List Char) (List RawMatch × Bool)) :
    List RawMatch × Bool :=
  match attempt with
  | Except.ok r => r
  | Except.error _ => ([], false)

/-- Model of the page accumulation loop of the /search handler (server.js
lines 237-248). The catalog source is a function from page number to a page
of listings plus the has-more flag. Returns the accumulated listings and the
number of pages fetched. -/
def fetchLoopGo (src : Nat → List RawMatch × Bool) (maxResults : Nat) :
    Nat → Nat → Nat → Bool → List RawMatch → List RawMatch × Nat
  | 0, _, _, _, acc => (acc, 0)
  | fuel + 1, currentPage, pageCount, hasMore, acc =>
    if hasMore = true ∧ acc.length < maxResults * 2 ∧ pageCount < 3 then
      let r := src currentPage
      let res := fetchLoopGo src maxResults fuel (currentPage + 1) (pageCount + 1)
        (r.2 && decide (0 < r.1.length)) (acc ++ r.1)
      (res.1, res.2 + 1)
    else (acc, 0)

/-- Wrapper supplying the fuel: the loop guard pageCount < 3 lets the body
run at most three times from any starting count, so a fuel of four never
runs out before the guard stops the loop. -/
def fetchLoop (src : Nat → List RawMatch × Bool) (maxResults : Nat)
    (currentPage pageCount : Nat) (hasMore : Bool) (acc : List RawMatch) :
    List RawMatch × Nat :=
  fetchLoopGo src maxResults 4 currentPage pageCount hasMore acc

/-- A scored candidate: the JS object spread of the raw listing, its title
components and the score. -/
structure ScoredMatch where
  book : RawMatch
  authors : List (List Char)
  cleanTitle : List Char
  year : Option Int
  score : ℚ
deriving DecidableEq, Repr

/-- Decompose one listing (with the fallback of server.js lines 255-259,
whose default year is the current year) and score it. -/
def scoreOne (cy : Int) (query author : List Char) (book : RawMatch) : ScoredMatch :=
  let comps := (extractTitleComponents book.title).getD
    ⟨book.authors, book.title, some cy⟩
  { book := book, authors := comps.authors, cleanTitle := comps.cleanTitle,
    year := comps.year,
    score := calculateScore cy
      ⟨book.title, some comps.cleanTitle, comps.authors, book.rating, comps.year⟩
      query author }

/-- Model of the /search pipeline (server.js lines 236-269): accumulate up to
three pages, deduplicate, decompose and score, sort stably by descending
score, truncate to the result cap. Current year and result cap are explicit
parameters. -/
def searchPipeline (cy : Int) (maxResults : Nat) (src : Nat → List RawMatch × Bool)
    (query author : List Char) (page : Nat) : List ScoredMatch :=
  (sortDesc ScoredMatch.score
    ((removeDuplicates (fetchLoop src maxResults page 0 true []).1).map
      (scoreOne cy query author))).take maxResults

/-! Theorems. -/

/-- The concrete composite title of the decomposition round-trip property. -/
def titleC6 : List Char :=
  ['J', 'a', 'n', ' ', 'K', 'o', 'w', 'a', 'l', 's', 'k', 'i', ' ', '-', ' ',
   'W', 'i', 'e', 'l', 'k', 'a', ' ', 'P', 'o', 'd', 'r', 'ó', 'ż', ' ',
   '(', '2', '0', '2', '1', ')', ' ',
   '[', 'a', 'u', 'd', 'i', 'o', 'b', 'o', 'o', 'k', ' ', 'P', 'L', ']']

/-- C6: the title decomposer applied to the composite title
"Jan Kowalski - Wielka Podróż (2021) [audiobook PL]" returns authors
["Jan Kowalski"], cleanTitle "Wielka Podróż", and year 2021. -/
theorem c6_decompose_roundtrip :
    extractTitleComponents titleC6 =
      some ⟨[['J', 'a', 'n', ' ', 'K', 'o', 'w', 'a', 'l', 's', 'k', 'i']],
        ['W', 'i', 'e', 'l', 'k', 'a', ' ', 'P', 'o', 'd', 'r', 'ó', 'ż'],
        some 2021⟩ := by
  decide

/-- C10: a candidate whose normalized title equals the normalized query gets
exactly 95 from calculateScore by the early return, and the result does not
change with the author filter, the rating or the year. -/
theorem c10_exact_title_early_return (cy : Int) (book : BookC)
    (query author : List Char)
    (h : normalize (jsOrTitle book) = normalize query) :
    calculateScore cy book query author = 95 ∧
      ∀ (r : Option ℚ) (y : Option Int) (author2 : List Char),
        calculateScore cy { book with rating := r, year := y } query author2 = 95 := by
  constructor
  · unfold calculateScore; rw [if_pos h]
  · intro r y author2
    unfold calculateScore
    have h2 : normalize (jsOrTitle { book with rating := r, year := y }) =
        normalize query := h
    rw [if_pos h2]

/-- Witness for C10 at a concrete candidate and query. -/
theorem c10_witness :
    normalize (jsOrTitle ⟨['a', 'b', 'c'], some ['a', 'b', 'c'], [['x']], none, none⟩) =
        normalize ['a', 'b', 'c'] ∧
      calculateScore 2025 ⟨['a', 'b', 'c'], some ['a', 'b', 'c'], [['x']], none, none⟩
        ['a', 'b', 'c'] ['q'] = 95 :=
  ⟨by decide,
    (c10_exact_title_early_return 2025 _ ['a', 'b', 'c'] ['q'] (by decide)).1⟩

/-- C1 counterexample: on an exact normalized title match the code returns 95,
which is below 100, so no bonus of +100 is being added to the (non-negative)
running score. -/
theorem c1_counterexample :
    normalize (jsOrTitle ⟨['d', 'e', 'f'], some ['d', 'e', 'f'], [['y']], none, none⟩) =
        normalize ['d', 'e', 'f'] ∧
      calculateScore 2024 ⟨['d', 'e', 'f'], some ['d', 'e', 'f'], [['y']], none, none⟩
        ['d', 'e', 'f'] [] < 100 := by
  decide

/-- C1 amended: when the normalized cleanTitle equals the normalized query,
calculateScore returns exactly 95 through an early return; no +100 bonus is
added on top of the base similarity contributions. -/
theorem c1_exact_title_amended (cy : Int) (book : BookC) (query author : List Char)
    (h : normalize (jsOrTitle book) = normalize query) :
    calculateScore cy book query author = 95 := by
  unfold calculateScore; rw [if_pos h]

/-- Witness for the amended C1 at a concrete candidate and query. -/
theorem c1_witness :
    normalize (jsOrTitle ⟨['d', 'e', 'f'], some ['d', 'e', 'f'], [['y']], none, none⟩) =
        normalize ['d', 'e', 'f'] ∧
      calculateScore 2024 ⟨['d', 'e', 'f'], some ['d', 'e', 'f'], [['y']], none, none⟩
        ['d', 'e', 'f'] ['z'] = 95 :=
  ⟨by decide, c1_exact_title_amended 2024 _ ['d', 'e', 'f'] ['z'] (by decide)⟩

/-- Helper: the fetch counter of the page loop never exceeds the remaining
page budget 3 - pageCount, whatever the fuel. -/
theorem fetchLoopGo_count_le (src : Nat → List RawMatch × Bool) (mr : Nat) :
    ∀ (fuel cp pc : Nat) (hm : Bool) (acc : List RawMatch),
      (fetchLoopGo src mr fuel cp pc hm acc).2 ≤ 3 - pc := by
  intro fuel
  induction fuel with
  | zero => intro cp pc hm acc; simp [fetchLoopGo]
  | succ n ih =>
    intro cp pc hm acc
    rw [fetchLoopGo]
    split
    · rename_i hcond
      obtain ⟨-, -, h3⟩ := hcond
      dsimp only
      have h2 := ih (cp + 1) (pc + 1)
        ((src cp).2 && decide (0 < (src cp).1.length)) (acc ++ (src cp).1)
      omega
    · simp

/-- C4: the page-accumulation loop performs at most 3 page fetches, for every
catalog source behaviour, including one that keeps reporting more pages of
non-empty listings. -/
theorem c4_page_ceiling (src : Nat → List RawMatch × Bool) (mr page : Nat) :
    (fetchLoop src mr page 0 true []).2 ≤ 3 :=
  fetchLoopGo_count_le src mr 4 page 0 true []

/-- C5: a raised page-fetch error is converted into an empty page with
hasMore false by the catch of searchBooks, and feeding such a page into the
accumulation loop ends the pagination with the already-accumulated listings
returned unchanged after that single fetch. -/
theorem c5_fail_soft :
    (∀ e : List Char, searchBooksResult (Except.error e) = ([], false)) ∧
    (∀ (src : Nat → List RawMatch × Bool) (mr cp pc : Nat) (acc : List RawMatch),
      src cp = ([], false) → pc < 3 → acc.length < mr * 2 →
      fetchLoop src mr cp pc true acc = (acc, 1)) := by
  constructor
  · intro e; rfl
  · intro src mr cp pc acc hsrc hpc hlen
    unfold fetchLoop
    rw [fetchLoopGo]
    rw [if_pos ⟨rfl, hlen, hpc⟩]
    dsimp only
    rw [hsrc]
    dsimp only
    rw [fetchLoopGo]
    rw [if_neg (by simp)]
    simp

/-- Witness for C5 at a concrete failing source and loop state. -/
theorem c5_witness :
    searchBooksResult (Except.error ['e']) = ([], false) ∧
      fetchLoop (fun _ => ([], false)) 15 1 0 true [] = ([], 1) :=
  ⟨c5_fail_soft.1 ['e'],
    c5_fail_soft.2 (fun _ => ([], false)) 15 1 0 [] rfl (by decide) (by decide)⟩

/-- Helper: a successful association-list lookup exhibits a member pair. -/
theorem lookup_mem {α β : Type} [BEq α] [LawfulBEq α] {l : List (α × β)} {k : α}
    {b : β} (h : l.lookup k = some b) : (k, b) ∈ l := by
  obtain ⟨l₁, l₂, rfl, -⟩ := List.lookup_eq_some_iff.mp h
  exact List.mem_append_right _ (List.mem_cons_self _ _)

/-- Helper: Char.ofNat of a number below the surrogate range has that number
as its code point. -/
theorem toNat_ofNat_valid {n : Nat} (h : n < 55296) : (Char.ofNat n).toNat = n := by
  have hv : n.isValidChar := Or.inl h
  simp [Char.ofNat, Char.ofNatAux, dif_pos hv, Char.toNat, UInt32.toNat,
    BitVec.toNat_ofNatLt]

/-- Helper: the decomposition of a lower-cased character never contains an
ASCII capital letter. -/
theorem nfd_jsLower_not_upper (c : Char) :
    ∀ d ∈ nfd (jsLower c), ¬(0x41 ≤ d.toNat ∧ d.toNat ≤ 0x5A) := by
  intro d hd
  unfold jsLower at hd
  split at hd
  · rename_i hAZ
    have ht : (Char.ofNat (c.toNat + 32)).toNat = c.toNat + 32 :=
      toNat_ofNat_valid (by omega)
    unfold nfd at hd
    rw [if_pos (by omega)] at hd
    simp only [List.mem_singleton] at hd
    subst hd
    omega
  · split at hd
    · rename_i h1 h2
      unfold nfd at hd
      rw [if_pos h2] at hd
      simp only [List.mem_singleton] at hd
      subst hd
      omega
    · rename_i h1 h2
      cases hl : lowerTable.lookup c with
      | none =>
        rw [hl] at hd
        simp only [Option.getD_none] at hd
        unfold nfd at hd
        rw [if_neg (by omega)] at hd
        cases hn : nfdTable.lookup c with
        | none =>
          rw [hn] at hd
          simp only [Option.getD_none, List.mem_singleton] at hd
          subst hd
          omega
        | some v =>
          rw [hn] at hd
          simp only [Option.getD_some] at hd
          have hmem := lookup_mem hn
          have htab : ∀ p ∈ nfdTable, ∀ d ∈ p.2,
              ¬(0x41 ≤ d.toNat ∧ d.toNat ≤ 0x5A) := by decide
          exact htab _ hmem d hd
      | some v =>
        rw [hl] at hd
        simp only [Option.getD_some] at hd
        have hmem := lookup_mem hl
        have htab : ∀ p ∈ lowerTable, ∀ d ∈ nfd p.2,
            ¬(0x41 ≤ d.toNat ∧ d.toNat ≤ 0x5A) := by decide
        exact htab _ hmem d hd

/-- Helper: after the word filter stage of normalize, every character is a
lower-case word character or whitespace. -/
theorem normalize_stage_chars (s : List Char) :
    ∀ d ∈ (((s.map jsLower).map nfd).flatten.filter
        (fun c => !isCombining c)).map wordFilterChar,
      baseChar d = true ∨ isSp d = true := by
  intro d hd
  rw [List.mem_map] at hd
  obtain ⟨e, he, rfl⟩ := hd
  unfold wordFilterChar
  split
  · rename_i hw
    rw [List.mem_filter] at he
    obtain ⟨he1, -⟩ := he
    rw [List.mem_flatten] at he1
    obtain ⟨lst, hlst, hel⟩ := he1
    rw [List.mem_map] at hlst
    obtain ⟨c0, hc0, rfl⟩ := hlst
    rw [List.mem_map] at hc0
    obtain ⟨c1, -, rfl⟩ := hc0
    have hnu := nfd_jsLower_not_upper c1 e hel
    simp only [Bool.or_eq_true] at hw
    rcases hw with h | h
    · left
      unfold isWordChar at h
      unfold baseChar
      simp only [Bool.or_eq_true, Bool.and_eq_true, decide_eq_true_eq] at h ⊢
      omega
    · right; exact h
  · right; decide

/-- Helper: every character of the collapsed string is a space or a non-space
character of the input. -/
theorem collapseWS_mem : ∀ (l : List Char) (c : Char), c ∈ collapseWS l →
    c = ' ' ∨ (c ∈ l ∧ isSp c = false)
  | [], c, h => by simp [collapseWS] at h
  | [a], c, h => by
    simp only [collapseWS] at h
    split at h
    · simp only [List.mem_singleton] at h
      left; exact h
    · rename_i hns
      simp only [List.mem_singleton] at h
      subst h
      right
      exact ⟨List.mem_singleton_self _, by simpa using hns⟩
  | a :: b :: rest, c, h => by
    simp only [collapseWS] at h
    split at h
    · rcases collapseWS_mem (b :: rest) c h with h1 | ⟨h2, h3⟩
      · left; exact h1
      · right; exact ⟨List.mem_cons_of_mem _ h2, h3⟩
    · rcases List.mem_cons.mp h with hc | h2
      · by_cases hsa : isSp a = true
        · left; rw [hc, if_pos hsa]
        · right
          rw [hc, if_neg hsa]
          exact ⟨List.mem_cons_self _ _, by simpa using hsa⟩
      · rcases collapseWS_mem (b :: rest) c h2 with h1 | ⟨h3, h4⟩
        · left; exact h1
        · right; exact ⟨List.mem_cons_of_mem _ h3, h4⟩

/-- Helper: characters of the trimmed string are characters of the input. -/
theorem mem_of_mem_jsTrim {c : Char} {l : List Char} (h : c ∈ jsTrim l) : c ∈ l := by
  unfold jsTrim at h
  rw [List.mem_reverse] at h
  have h2 := List.dropWhile_subset _ h
  rw [List.mem_reverse] at h2
  exact List.dropWhile_subset _ h2

/-- Helper: every character of a normalized string is a lower-case word
character or the single space. -/
theorem normalize_chars (s : List Char) :
    ∀ c ∈ normalize s, baseChar c = true ∨ c = ' ' := by
  intro c hc
  unfold normalize at hc
  have h1 := mem_of_mem_jsTrim hc
  rcases collapseWS_mem _ _ h1 with h2 | ⟨h3, h4⟩
  · right; exact h2
  · rcases normalize_stage_chars s c h3 with h5 | h5
    · left; exact h5
    · rw [h5] at h4; cases h4

/-- Helper: the pipe character never occurs in a normalized string, so the
concatenated key of removeDuplicates determines the pair of its parts. -/
theorem pipe_not_mem_normalize (s : List Char) : '|' ∉ normalize s := by
  intro h
  rcases normalize_chars s '|' h with h1 | h1
  · cases h1
  · cases h1

/-- Helper: splitting a pipe-separated concatenation is unambiguous when
neither left part contains the pipe. -/
theorem append_pipe_inj : ∀ (x t y a : List Char), '|' ∉ x → '|' ∉ t →
    x ++ '|' :: y = t ++ '|' :: a → x = t ∧ y = a
  | [], [], y, a, _, _, h => by
    simp only [List.nil_append, List.cons.injEq] at h
    exact ⟨rfl, h.2⟩
  | [], b :: t', y, a, hx, ht, h => by
    simp only [List.nil_append, List.cons_append, List.cons.injEq] at h
    exact absurd (List.mem_cons.mpr (Or.inl h.1)) ht
  | c :: x', [], y, a, hx, ht, h => by
    simp only [List.cons_append, List.nil_append, List.cons.injEq] at h
    exact absurd (List.mem_cons.mpr (Or.inl h.1.symm)) hx
  | c :: x', b :: t', y, a, hx, ht, h => by
    simp only [List.cons_append, List.cons.injEq] at h
    obtain ⟨rfl, h2⟩ := h
    have := append_pipe_inj x' t' y a (fun hm => hx (List.mem_cons_of_mem _ hm))
      (fun hm => ht (List.mem_cons_of_mem _ hm)) h2
    exact ⟨by rw [this.1], this.2⟩

/-- Helper: the filtered-by-key view of the dedup worker keeps exactly the
first occurrence of a key not yet seen, and none of a key already seen. -/
theorem removeDupGo_filter (k : List Char) :
    ∀ (l : List RawMatch) (seen : List (List Char)),
      (removeDupGo l seen).filter (fun m => decide (dedupKey m = k)) =
        if k ∈ seen then []
        else (l.filter (fun m => decide (dedupKey m = k))).take 1
  | [], seen => by
    simp only [removeDupGo, List.filter_nil, List.take_nil]
    split <;> rfl
  | m :: rest, seen => by
    simp only [removeDupGo]
    by_cases hk : dedupKey m ∈ seen
    · rw [if_pos hk]
      rw [removeDupGo_filter k rest seen]
      by_cases hks : k ∈ seen
      · rw [if_pos hks, if_pos hks]
      · rw [if_neg hks, if_neg hks]
        have hmk : ¬ dedupKey m = k := fun h => hks (h ▸ hk)
        rw [List.filter_cons_of_neg (by simpa using hmk)]
    · rw [if_neg hk]
      by_cases hmk : dedupKey m = k
      · subst hmk
        rw [List.filter_cons_of_pos (by simp), List.filter_cons_of_pos (by simp)]
        rw [removeDupGo_filter (dedupKey m) rest (dedupKey m :: seen)]
        rw [if_pos (List.mem_cons_self _ _), if_neg hk]
        simp
      · rw [List.filter_cons_of_neg (by simpa using hmk),
          List.filter_cons_of_neg (by simpa using hmk)]
        rw [removeDupGo_filter k rest (dedupKey m :: seen)]
        have hiff : (k ∈ dedupKey m :: seen) ↔ k ∈ seen := by
          simp only [List.mem_cons]
          constructor
          · rintro (h | h)
            · exact absurd h.symm hmk
            · exact h
          · exact Or.inr
        exact if_congr hiff rfl rfl

/-- C3: for every input sequence of listings and every deduplication key (the
pair of normalized cleanTitle and normalized first author), the deduplicated
output contains exactly the first-encountered listing with that key; later
duplicates are dropped. -/
theorem c3_dedup_first_wins (l : List RawMatch) (t a : List Char) :
    (removeDuplicates l).filter (fun m => decide (dedupPair m = (t, a))) =
      (l.filter (fun m => decide (dedupPair m = (t, a)))).take 1 := by
  by_cases hp : '|' ∈ t
  · have hnil : ∀ (l' : List RawMatch),
        l'.filter (fun m => decide (dedupPair m = (t, a))) = [] := by
      intro l'
      rw [List.filter_eq_nil_iff]
      intro m _
      simp only [decide_eq_true_eq]
      intro hEq
      unfold dedupPair at hEq
      have h1 : normalize (rawKeyTitle m) = t := congrArg Prod.fst hEq
      exact pipe_not_mem_normalize (rawKeyTitle m) (h1 ▸ hp)
    rw [hnil, hnil, List.take_nil]
  · have hpt : ∀ m ∈ l, (decide (dedupPair m = (t, a))) =
        (decide (dedupKey m = t ++ '|' :: a)) := by
      intro m _
      by_cases h : dedupPair m = (t, a)
      · have h1 : normalize (rawKeyTitle m) = t := congrArg Prod.fst h
        have h2 : normalize (m.authors.headD []) = a := congrArg Prod.snd h
        have hk : dedupKey m = t ++ '|' :: a := by
          unfold dedupKey; rw [h1, h2]
        simp [h, hk]
      · have hk : ¬ dedupKey m = t ++ '|' :: a := by
          intro hEq
          unfold dedupKey at hEq
          have := append_pipe_inj _ _ _ _
            (pipe_not_mem_normalize (rawKeyTitle m)) hp hEq
          exact h (by unfold dedupPair; rw [this.1, this.2])
        simp [h, hk]
    have hpt2 : ∀ m ∈ removeDuplicates l, (decide (dedupPair m = (t, a))) =
        (decide (dedupKey m = t ++ '|' :: a)) := by
      intro m hm
      by_cases h : dedupPair m = (t, a)
      · have h1 : normalize (rawKeyTitle m) = t := congrArg Prod.fst h
        have h2 : normalize (m.authors.headD []) = a := congrArg Prod.snd h
        have hk : dedupKey m = t ++ '|' :: a := by
          unfold dedupKey; rw [h1, h2]
        simp [h, hk]
      · have hk : ¬ dedupKey m = t ++ '|' :: a := by
          intro hEq
          unfold dedupKey at hEq
          have := append_pipe_inj _ _ _ _
            (pipe_not_mem_normalize (rawKeyTitle m)) hp hEq
          exact h (by unfold dedupPair; rw [this.1, this.2])
        simp [h, hk]
    rw [List.filter_congr hpt2, List.filter_congr hpt]
    unfold removeDuplicates
    rw [removeDupGo_filter (t ++ '|' :: a) l []]
    rw [if_neg (List.not_mem_nil _)]

/-- Helper: the word-by-word title term is non-negative. -/
theorem titleWordScore_nonneg (t q : List Char) : 0 ≤ titleWordScore t q := by
  unfold titleWordScore
  split
  · exact mul_nonneg (div_nonneg (Nat.cast_nonneg _) (Nat.cast_nonneg _)) (by norm_num)
  · norm_num

/-- Helper: the word-by-word title term is at most 60. -/
theorem titleWordScore_le (t q : List Char) : titleWordScore t q ≤ 60 := by
  unfold titleWordScore
  split
  · have h1 : ((((jsSplitWS [] q).filter (fun w => 1 < w.length)).filter
        (fun w => jsIncl w t)).length : ℚ) /
        (((jsSplitWS [] q).filter (fun w => 1 < w.length)).length : ℚ) ≤ 1 :=
      div_le_one_of_le₀ (by exact_mod_cast List.length_filter_le _ _) (Nat.cast_nonneg _)
    calc ((((jsSplitWS [] q).filter (fun w => 1 < w.length)).filter
          (fun w => jsIncl w t)).length : ℚ) /
          (((jsSplitWS [] q).filter (fun w => 1 < w.length)).length : ℚ) * 60 ≤ 1 * 60 :=
        mul_le_mul_of_nonneg_right h1 (by norm_num)
      _ = 60 := by norm_num
  · norm_num

/-- Helper: the author term of calculateScore is non-negative. -/
theorem authorScore_nonneg (na : List Char) (bas : List (List Char)) :
    0 ≤ authorScore na bas := by
  unfold authorScore; split <;> norm_num

/-- Helper: the author term of calculateScore is at most 25. -/
theorem authorScore_le (na : List Char) (bas : List (List Char)) :
    authorScore na bas ≤ 25 := by
  unfold authorScore; split <;> norm_num

/-- Helper: the rating bonus is non-negative. -/
theorem ratingBonus_nonneg (r : Option ℚ) : 0 ≤ ratingBonus r := by
  cases r with
  | none => norm_num [ratingBonus]
  | some x => simp only [ratingBonus]; split_ifs <;> norm_num

/-- Helper: the rating bonus is at most 10. -/
theorem ratingBonus_le (r : Option ℚ) : ratingBonus r ≤ 10 := by
  cases r with
  | none => norm_num [ratingBonus]
  | some x => simp only [ratingBonus]; split_ifs <;> norm_num

/-- Helper: the recency bonus is non-negative. -/
theorem yearBonus_nonneg (cy : Int) (y : Option Int) : 0 ≤ yearBonus cy y := by
  unfold yearBonus; split <;> norm_num

/-- Helper: the recency bonus is at most 5. -/
theorem yearBonus_le (cy : Int) (y : Option Int) : yearBonus cy y ≤ 5 := by
  unfold yearBonus; split <;> norm_num

/-- Helper: calculateScore always lies in the interval from 0 to 100. -/
theorem calculateScore_bounds (cy : Int) (book : BookC) (q a : List Char) :
    0 ≤ calculateScore cy book q a ∧ calculateScore cy book q a ≤ 100 := by
  unfold calculateScore
  split
  · norm_num
  · constructor
    · refine le_min ?_ (by norm_num)
      have h1 : (0:ℚ) ≤ if jsIncl (normalize q) (normalize (jsOrTitle book)) ||
          jsIncl (normalize (jsOrTitle book)) (normalize q) then 80 else 0 := by
        split <;> norm_num
      have h2 := titleWordScore_nonneg (normalize (jsOrTitle book)) (normalize q)
      have h3 := authorScore_nonneg (normalize a) (book.authors.map normalize)
      have h4 := ratingBonus_nonneg book.rating
      have h5 := yearBonus_nonneg cy book.year
      linarith
    · exact min_le_right _ _

/-- Helper: the word-match term of calculateMatchScore is non-negative. -/
theorem wordScore30_nonneg (t q : List Char) : 0 ≤ wordScore30 t q := by
  unfold wordScore30
  exact mul_nonneg (div_nonneg (Nat.cast_nonneg _) (Nat.cast_nonneg _)) (by norm_num)

/-- Helper: the word-match term of calculateMatchScore is at most 30. -/
theorem wordScore30_le (t q : List Char) : wordScore30 t q ≤ 30 := by
  unfold wordScore30
  have h1 : (((jsSplitWS [] q).filter
      (fun w => (jsSplitWS [] t).contains w)).length : ℚ) /
      ((jsSplitWS [] q).length : ℚ) ≤ 1 :=
    div_le_one_of_le₀ (by exact_mod_cast List.length_filter_le _ _) (Nat.cast_nonneg _)
  calc (((jsSplitWS [] q).filter
        (fun w => (jsSplitWS [] t).contains w)).length : ℚ) /
        ((jsSplitWS [] q).length : ℚ) * 30 ≤ 1 * 30 :=
      mul_le_mul_of_nonneg_right h1 (by norm_num)
    _ = 30 := by norm_num

/-- Helper: the author term of calculateMatchScore is at least minus 20. -/
theorem authorScore2_lb (a nba : List Char) : -20 ≤ authorScore2 a nba := by
  unfold authorScore2; split_ifs <;> norm_num

/-- Helper: the author term of calculateMatchScore is at most 40. -/
theorem authorScore2_ub (a nba : List Char) : authorScore2 a nba ≤ 40 := by
  unfold authorScore2; split_ifs <;> norm_num

/-- Helper: calculateMatchScore always lies in the interval from minus 20
to 130. -/
theorem calculateMatchScore_bounds (book : RawMatch) (q a : List Char) :
    -20 ≤ calculateMatchScore book q a ∧ calculateMatchScore book q a ≤ 130 := by
  unfold calculateMatchScore
  have h1lb : (0:ℚ) ≤
      if jsIncl (normalizeString q) (normalizeString book.title) then 50 else 0 := by
    split <;> norm_num
  have h1ub : (if jsIncl (normalizeString q) (normalizeString book.title)
      then (50:ℚ) else 0) ≤ 50 := by
    split <;> norm_num
  have h2lb := wordScore30_nonneg (normalizeString book.title) (normalizeString q)
  have h2ub := wordScore30_le (normalizeString book.title) (normalizeString q)
  have h3lb := authorScore2_lb a (List.intercalate [' '] (book.authors.map normalizeString))
  have h3ub := authorScore2_ub a (List.intercalate [' '] (book.authors.map normalizeString))
  have h4lb := ratingBonus_nonneg book.rating
  have h4ub := ratingBonus_le book.rating
  constructor <;> linarith

/-- C2 counterexample: with a query matching nothing and a non-matching
author filter, the older scorer returns minus 20, which lies neither in the
interval from 0 to 300 nor in the interval from 0 to 100. -/
theorem c2_counterexample :
    calculateMatchScore ⟨['1'], ['a', 'b', 'c'], [['x']], [], [], none, none⟩
        ['z', 'z', 'z'] ['q'] = -20 ∧
      ¬(0 ≤ calculateMatchScore ⟨['1'], ['a', 'b', 'c'], [['x']], [], [], none, none⟩
        ['z', 'z', 'z'] ['q']) := by
  with_unfolding_all decide

/-- C2 amended: calculateScore always lies within the interval from 0 to 100
(hence within 0 to 300); the simpler variant calculateMatchScore lies within
the interval from minus 20 to 130, not within 0 to 100. -/
theorem c2_score_ranges (cy : Int) (book : BookC) (book2 : RawMatch)
    (q a q2 a2 : List Char) :
    (0 ≤ calculateScore cy book q a ∧ calculateScore cy book q a ≤ 100) ∧
      (-20 ≤ calculateMatchScore book2 q2 a2 ∧ calculateMatchScore book2 q2 a2 ≤ 130) :=
  ⟨calculateScore_bounds cy book q a, calculateMatchScore_bounds book2 q2 a2⟩

/-- First concrete listing of the C8 counterexample: decomposes with
year 2021. -/
def bA : RawMatch :=
  ⟨['1'],
   ['A', 'u', 't', 'o', 'r', ' ', 'J', 'e', 'd', 'e', 'n', ' ', '-', ' ',
    'a', 'l', 'f', 'a', ' ', 'g', 'a', 'm', 'm', 'a', ' ',
    '(', '2', '0', '2', '1', ')', ' ',
    '[', 'a', 'u', 'd', 'i', 'o', 'b', 'o', 'o', 'k', ' ', 'P', 'L', ']'],
   [['A', 'u', 't', 'o', 'r', ' ', 'J', 'e', 'd', 'e', 'n']], [], [], none, none⟩

/-- Second concrete listing of the C8 counterexample: decomposes with
year 2020. -/
def bB : RawMatch :=
  ⟨['2'],
   ['A', 'u', 't', 'o', 'r', ' ', 'D', 'w', 'a', ' ', '-', ' ',
    'b', 'e', 't', 'a', ' ', 'g', 'a', 'm', 'm', 'a', ' ',
    '(', '2', '0', '2', '0', ')', ' ',
    '[', 'a', 'u', 'd', 'i', 'o', 'b', 'o', 'o', 'k', ' ', 'P', 'L', ']'],
   [['A', 'u', 't', 'o', 'r', ' ', 'D', 'w', 'a']], [], [], none, none⟩

/-- Query of the C8 counterexample. -/
def qAB : List Char := ['a', 'l', 'f', 'a', ' ', 'b', 'e', 't', 'a']

/-- C8 counterexample: two runs of the pipeline with identical catalog
responses but different current years (the code reads the system clock for
the recency bonus) order the candidates differently. -/
theorem c8_counterexample :
    searchPipeline 2021 15 (fun _ => ([bA, bB], false)) qAB [] 1 ≠
      searchPipeline 2020 15 (fun _ => ([bA, bB], false)) qAB [] 1 := by
  with_unfolding_all decide

/-- C8 amended: given identical catalog source responses and an identical
current year, the search pipeline is deterministic: it produces identical
ordered result sequences. -/
theorem c8_deterministic (cy : Int) (mr : Nat)
    (src1 src2 : Nat → List RawMatch × Bool) (q a : List Char) (p : Nat)
    (h : ∀ n, src1 n = src2 n) :
    searchPipeline cy mr src1 q a p = searchPipeline cy mr src2 q a p := by
  have hs : src1 = src2 := funext h
  rw [hs]

/-- Witness for the amended C8 at a concrete source. -/
theorem c8_witness :
    searchPipeline 2025 15 (fun _ => ([], false)) [] [] 1 =
      searchPipeline 2025 15 (fun _ => ([], false)) [] [] 1 :=
  c8_deterministic 2025 15 (fun _ => ([], false)) (fun _ => ([], false)) [] [] 1
    (fun _ => rfl)

/-- Helper: membership in an insertion. -/
theorem mem_insertDesc {α : Type} (key : α → ℚ) (x z : α) :
    ∀ (l : List α), z ∈ insertDesc key x l ↔ z = x ∨ z ∈ l
  | [] => by simp [insertDesc]
  | y :: ys => by
    simp only [insertDesc]
    split
    · simp [List.mem_cons]
    · rw [List.mem_cons, mem_insertDesc key x z ys, List.mem_cons]
      tauto

/-- Helper: insertion keeps a descending list descending. -/
theorem pairwise_insertDesc {α : Type} (key : α → ℚ) (x : α) :
    ∀ (l : List α), List.Pairwise (fun a b => key b ≤ key a) l →
      List.Pairwise (fun a b => key b ≤ key a) (insertDesc key x l)
  | [], _ => by simp [insertDesc]
  | y :: ys, h => by
    simp only [insertDesc]
    rcases List.pairwise_cons.mp h with ⟨hy, ht⟩
    split
    · rename_i hyx
      refine List.pairwise_cons.mpr ⟨?_, h⟩
      intro z hz
      rcases List.mem_cons.mp hz with rfl | hz2
      · exact hyx
      · exact le_trans (hy z hz2) hyx
    · rename_i hyx
      refine List.pairwise_cons.mpr ⟨?_, pairwise_insertDesc key x ys ht⟩
      intro z hz
      rcases (mem_insertDesc key x z ys).mp hz with rfl | hz2
      · exact le_of_not_le hyx
      · exact hy z hz2

/-- Helper: the stable descending insertion sort sorts descendingly. -/
theorem pairwise_sortDesc {α : Type} (key : α → ℚ) :
    ∀ (l : List α), List.Pairwise (fun a b => key b ≤ key a) (sortDesc key l)
  | [] => by simp [sortDesc]
  | x :: xs => pairwise_insertDesc key x (sortDesc key xs) (pairwise_sortDesc key xs)

/-- Helper: inserting an element whose key is s puts it in front of the
equal-key elements of a descending list. -/
theorem filter_insertDesc_eq {α : Type} (key : α → ℚ) (x : α) :
    ∀ (l : List α), List.Pairwise (fun a b => key b ≤ key a) l →
      (insertDesc key x l).filter (fun z => decide (key z = key x)) =
        x :: l.filter (fun z => decide (key z = key x))
  | [], _ => by simp [insertDesc]
  | y :: ys, h => by
    simp only [insertDesc]
    rcases List.pairwise_cons.mp h with ⟨hy, ht⟩
    split
    · rw [List.filter_cons_of_pos (by simp)]
    · rename_i hyx
      have hyne : ¬ (key y = key x) := fun hEq => hyx (le_of_eq hEq)
      rw [List.filter_cons_of_neg (by simpa using hyne),
        List.filter_cons_of_neg (by simpa using hyne)]
      exact filter_insertDesc_eq key x ys ht

/-- Helper: inserting an element does not disturb the subsequence of
elements with a different key. -/
theorem filter_insertDesc_ne {α : Type} (key : α → ℚ) (x : α) (s : ℚ)
    (hs : ¬ key x = s) :
    ∀ (l : List α),
      (insertDesc key x l).filter (fun z => decide (key z = s)) =
        l.filter (fun z => decide (key z = s))
  | [] => by simp [insertDesc, hs]
  | y :: ys => by
    simp only [insertDesc]
    split
    · rw [List.filter_cons_of_neg (by simpa using hs)]
    · rw [List.filter_cons, List.filter_cons, filter_insertDesc_ne key x s hs ys]

/-- Helper: for every key value, sorting preserves the subsequence of
elements having that key value. -/
theorem filter_sortDesc {α : Type} (key : α → ℚ) :
    ∀ (l : List α) (s : ℚ),
      (sortDesc key l).filter (fun z => decide (key z = s)) =
        l.filter (fun z => decide (key z = s))
  | [], s => by simp [sortDesc]
  | x :: xs, s => by
    simp only [sortDesc]
    by_cases hxs : key x = s
    · subst hxs
      rw [filter_insertDesc_eq key x (sortDesc key xs) (pairwise_sortDesc key xs)]
      rw [filter_sortDesc key xs (key x)]
      rw [List.filter_cons_of_pos (by simp)]
    · rw [filter_insertDesc_ne key x s hxs]
      rw [filter_sortDesc key xs s]
      rw [List.filter_cons_of_neg (by simpa using hxs)]

/-- Relation forbidding two adjacent whitespace characters. -/
def noDoubleSp (a b : Char) : Prop := ¬(isSp a = true ∧ isSp b = true)

/-- Helper: a base character is not whitespace. -/
theorem baseChar_not_sp {c : Char} (h : baseChar c = true) : isSp c = false := by
  cases hs : isSp c
  · rfl
  · exfalso
    unfold baseChar at h
    unfold isSp at hs
    simp only [Bool.or_eq_true, Bool.and_eq_true, decide_eq_true_eq] at h hs
    omega

/-- Helper: collapsing a list starting with a non-space keeps that head. -/
theorem collapseWS_cons_head (a : Char) (l : List Char) (h : isSp a = false) :
    ∃ t, collapseWS (a :: l) = a :: t := by
  cases l with
  | nil =>
    refine ⟨[], ?_⟩
    simp only [collapseWS]
    rw [if_neg (by simp [h])]
  | cons b r =>
    simp only [collapseWS]
    rw [if_neg (by simp [h]), if_neg (by simp [h])]
    exact ⟨collapseWS (b :: r), rfl⟩

/-- Helper: the collapsed string has no two adjacent whitespace characters. -/
theorem collapseWS_chain : ∀ (l : List Char),
    List.Chain' noDoubleSp (collapseWS l)
  | [] => by simp [collapseWS]
  | [c] => by
    simp only [collapseWS]
    split
    · exact List.chain'_singleton _
    · exact List.chain'_singleton _
  | a :: b :: rest => by
    simp only [collapseWS]
    split
    · exact collapseWS_chain (b :: rest)
    · rename_i hab
      by_cases hsa : isSp a = true
      · rw [if_pos hsa]
        have hsb : isSp b = false := by
          cases hs : isSp b
          · rfl
          · exact absurd (by simp [hsa, hs]) hab
        obtain ⟨t, ht⟩ := collapseWS_cons_head b rest hsb
        rw [ht, List.chain'_cons']
        constructor
        · intro y hy
          have hyb : b = y := by simpa using hy
          subst hyb
          intro hcon
          rw [hsb] at hcon
          exact Bool.false_ne_true hcon.2
        · rw [← ht]
          exact collapseWS_chain (b :: rest)
      · rw [if_neg hsa, List.chain'_cons']
        refine ⟨?_, collapseWS_chain (b :: rest)⟩
        intro y hy hcon
        exact hsa hcon.1

/-- Helper: the head surviving a dropWhile falsifies the dropped predicate. -/
theorem dropWhile_head_false (p : Char → Bool) :
    ∀ (m : List Char) (c : Char) (t : List Char),
      m.dropWhile p = c :: t → p c = false
  | [], c, t, h => by simp at h
  | a :: m', c, t, h => by
    by_cases hpa : p a = true
    · rw [List.dropWhile_cons_of_pos hpa] at h
      exact dropWhile_head_false p m' c t h
    · rw [List.dropWhile_cons_of_neg hpa] at h
      cases h
      simpa using hpa

/-- Helper: dropWhile is idempotent. -/
theorem dropWhile_idem (p : Char → Bool) (m : List Char) :
    (m.dropWhile p).dropWhile p = m.dropWhile p := by
  cases h : m.dropWhile p with
  | nil => simp
  | cons c t =>
    have hc := dropWhile_head_false p m c t h
    rw [List.dropWhile_cons_of_neg (by simp [hc])]

/-- Helper: trimming from the right keeps the head of the string (or empties
it). -/
theorem rev_trim_head (y z : List Char)
    (hz : z.reverse = y.reverse.dropWhile isSp) :
    z = [] ∨ z.head? = y.head? := by
  obtain ⟨tt, htt⟩ := List.dropWhile_suffix (l := y.reverse) isSp
  rw [← hz] at htt
  have hy : y = z ++ tt.reverse := by
    have h2 := congrArg List.reverse htt
    simp only [List.reverse_append, List.reverse_reverse] at h2
    exact h2.symm
  cases z with
  | nil => exact Or.inl rfl
  | cons c zt =>
    right
    rw [hy]
    simp

/-- Helper: the trimmed string is already trimmed on both sides. -/
theorem jsTrim_fixed (l : List Char) :
    (jsTrim l).dropWhile isSp = jsTrim l ∧
      (jsTrim l).reverse.dropWhile isSp = (jsTrim l).reverse := by
  constructor
  · unfold jsTrim
    rcases rev_trim_head (l.dropWhile isSp)
        ((l.dropWhile isSp).reverse.dropWhile isSp).reverse
        (by rw [List.reverse_reverse]) with hz | hz
    · rw [hz]; rfl
    · cases hzz : ((l.dropWhile isSp).reverse.dropWhile isSp).reverse with
      | nil => rfl
      | cons c t =>
        rw [hzz] at hz
        cases hy : l.dropWhile isSp with
        | nil => rw [hy] at hz; simp at hz
        | cons c2 t2 =>
          rw [hy] at hz
          simp only [List.head?_cons, Option.some.injEq] at hz
          have hc := dropWhile_head_false isSp l c2 t2 hy
          rw [List.dropWhile_cons_of_neg (by simp [hz, hc])]
  · unfold jsTrim
    rw [List.reverse_reverse]
    exact dropWhile_idem isSp _

/-- Helper: trimming an already-trimmed string does nothing. -/
theorem jsTrim_eq_self {l : List Char} (h1 : l.dropWhile isSp = l)
    (h2 : l.reverse.dropWhile isSp = l.reverse) : jsTrim l = l := by
  unfold jsTrim
  rw [h1, h2, List.reverse_reverse]

/-- Helper: dropping a run of characters preserves the no-double-space
chain. -/
theorem chain'_of_dropWhile {l : List Char} (h : List.Chain' noDoubleSp l) :
    List.Chain' noDoubleSp (l.dropWhile isSp) := by
  obtain ⟨tt, htt⟩ := List.dropWhile_suffix (l := l) isSp
  rw [← htt] at h
  exact (List.chain'_append.mp h).2.1

/-- Helper: the no-double-space chain is symmetric under reversal. -/
theorem chain'_of_reverse {l : List Char} (h : List.Chain' noDoubleSp l) :
    List.Chain' noDoubleSp l.reverse := by
  rw [List.chain'_reverse]
  exact h.imp (fun a b hab hcon => hab ⟨hcon.2, hcon.1⟩)

/-- Helper: trimming preserves the no-double-space chain. -/
theorem chain'_jsTrim {l : List Char} (h : List.Chain' noDoubleSp l) :
    List.Chain' noDoubleSp (jsTrim l) := by
  unfold jsTrim
  exact chain'_of_reverse (chain'_of_dropWhile (chain'_of_reverse
    (chain'_of_dropWhile h)))

/-- Helper: lower-casing fixes normalized-output characters. -/
theorem jsLower_fixed {c : Char} (h : baseChar c = true ∨ c = ' ') :
    jsLower c = c := by
  rcases h with h | rfl
  · unfold baseChar at h
    simp only [Bool.or_eq_true, Bool.and_eq_true, decide_eq_true_eq] at h
    unfold jsLower
    rw [if_neg (by omega), if_pos (by omega)]
  · decide

/-- Helper: decomposition fixes normalized-output characters. -/
theorem nfd_fixed {c : Char} (h : baseChar c = true ∨ c = ' ') :
    nfd c = [c] := by
  rcases h with h | rfl
  · unfold baseChar at h
    simp only [Bool.or_eq_true, Bool.and_eq_true, decide_eq_true_eq] at h
    unfold nfd
    rw [if_pos (by omega)]
  · decide

/-- Helper: normalized-output characters are not combining marks. -/
theorem combining_false {c : Char} (h : baseChar c = true ∨ c = ' ') :
    isCombining c = false := by
  rcases h with h | rfl
  · unfold baseChar at h
    simp only [Bool.or_eq_true, Bool.and_eq_true, decide_eq_true_eq] at h
    cases hcc : isCombining c
    · rfl
    · exfalso
      unfold isCombining at hcc
      simp only [Bool.and_eq_true, decide_eq_true_eq] at hcc
      omega
  · decide

/-- Helper: the word filter fixes normalized-output characters. -/
theorem wordFilterChar_fixed {c : Char} (h : baseChar c = true ∨ c = ' ') :
    wordFilterChar c = c := by
  rcases h with h | rfl
  · unfold baseChar at h
    simp only [Bool.or_eq_true, Bool.and_eq_true, decide_eq_true_eq] at h
    unfold wordFilterChar
    rw [if_pos (by
      unfold isWordChar
      simp only [Bool.or_eq_true, Bool.and_eq_true, decide_eq_true_eq]
      omega)]
  · decide

/-- Helper: mapping a function that fixes every member is the identity. -/
theorem map_fixed (f : Char → Char) :
    ∀ (l : List Char), (∀ c ∈ l, f c = c) → l.map f = l
  | [], _ => rfl
  | c :: cs, h => by
    simp only [List.map_cons]
    rw [h c (List.mem_cons_self _ _),
      map_fixed f cs (fun d hd => h d (List.mem_cons_of_mem _ hd))]

/-- Helper: flattening a map to singletons is the identity. -/
theorem flatten_map_fixed (g : Char → List Char) :
    ∀ (l : List Char), (∀ c ∈ l, g c = [c]) → (l.map g).flatten = l
  | [], _ => rfl
  | c :: cs, h => by
    simp only [List.map_cons, List.flatten_cons]
    rw [h c (List.mem_cons_self _ _),
      flatten_map_fixed g cs (fun d hd => h d (List.mem_cons_of_mem _ hd))]
    rfl

/-- Helper: collapsing does nothing on a string of word characters and
isolated single spaces. -/
theorem collapseWS_id : ∀ (l : List Char),
    (∀ c ∈ l, baseChar c = true ∨ c = ' ') → List.Chain' noDoubleSp l →
      collapseWS l = l
  | [], _, _ => rfl
  | [c], hc, _ => by
    simp only [collapseWS]
    split
    · rename_i hs
      rcases hc c (List.mem_singleton_self c) with h | rfl
      · rw [baseChar_not_sp h] at hs
        exact absurd hs Bool.false_ne_true
      · rfl
    · rfl
  | a :: b :: rest, hc, hch => by
    simp only [collapseWS]
    have hh := List.chain'_cons'.mp hch
    have hab : noDoubleSp a b := hh.1 b rfl
    rw [if_neg (by
      intro hcon
      simp only [Bool.and_eq_true] at hcon
      exact hab ⟨hcon.1, hcon.2⟩)]
    have h1 : (if isSp a = true then ' ' else a) = a := by
      rcases hc a (List.mem_cons_self _ _) with h | rfl
      · rw [if_neg (by simp [baseChar_not_sp h])]
      · rw [if_pos (by decide)]
    rw [h1]
    rw [collapseWS_id (b :: rest)
      (fun c hcc => hc c (List.mem_cons_of_mem _ hcc)) hh.2]

/-- C7: the normalizer is idempotent over all string inputs. -/
theorem c7_normalize_idem (s : List Char) :
    normalize (normalize s) = normalize s := by
  have hchars := normalize_chars s
  have hchain : List.Chain' noDoubleSp (normalize s) := by
    unfold normalize
    exact chain'_jsTrim (collapseWS_chain _)
  have hfix := jsTrim_fixed (collapseWS ((((s.map jsLower).map nfd).flatten.filter
    (fun c => !isCombining c)).map wordFilterChar))
  have hfix1 : (normalize s).dropWhile isSp = normalize s := hfix.1
  have hfix2 : (normalize s).reverse.dropWhile isSp = (normalize s).reverse := hfix.2
  conv_lhs => rw [normalize]
  rw [map_fixed jsLower _ (fun c hcc => jsLower_fixed (hchars c hcc))]
  rw [flatten_map_fixed nfd _ (fun c hcc => nfd_fixed (hchars c hcc))]
  rw [List.filter_eq_self.mpr
    (fun c hcc => by rw [combining_false (hchars c hcc)]; rfl)]
  rw [map_fixed wordFilterChar _ (fun c hcc => wordFilterChar_fixed (hchars c hcc))]
  rw [collapseWS_id _ hchars hchain]
  exact jsTrim_eq_self hfix1 hfix2

/-- C9: after scoring, the sorted candidate list is ordered by descending
score, and for every score value the subsequence of candidates having that
score is the original first-seen subsequence, so equal-score candidates
retain their relative order. -/
theorem c9_sort_stable (l : List ScoredMatch) :
    List.Pairwise (fun a b => ScoredMatch.score b ≤ ScoredMatch.score a)
        (sortDesc ScoredMatch.score l) ∧
      ∀ s : ℚ, (sortDesc ScoredMatch.score l).filter
          (fun m => decide (m.score = s)) =
        l.filter (fun m => decide (m.score = s)) :=
  ⟨pairwise_sortDesc ScoredMatch.score l,
    fun s => filter_sortDesc ScoredMatch.score l s⟩

end AudiotekaModel
